import Mathlib

/-!
Verification of the `circleci-utils` repository: a shallow embedding of
`admin_utils/repository_audit/github_actions_audit.py` and
`github_utility/github_cli/{commands.py, main.py}` together with proofs of
the specification's testable properties.

HTTP responses are modelled as records carrying the status code and the
JSON fields the code reads; absent JSON fields are `Option.none`.
-/

namespace CircleCIUtils

/-- A GitHub API JSON response as consumed by the audit code: the HTTP
status together with the JSON fields that `check_actions_enabled` reads
(`enabled`, `allowed_actions`, `default_workflow_permissions`,
`can_approve_pull_request_reviews`); a missing field is `none`. -/
structure HttpJson where
  status : Nat
  enabled : Option Bool := none
  allowed_actions : Option String := none
  default_workflow_permissions : Option String := none
  can_approve_pull_request_reviews : Option Bool := none
  deriving Repr, DecidableEq

/-- The Actions-Permission result dictionary built by
`GitHubActionsAudit.check_actions_enabled`.  The two workflow-permission
fields are only added to the dictionary on the final optional fetch, so
they are `Option`s (`none` = key absent). -/
structure ActionsResult where
  is_fork : Bool
  fork_status : String
  enabled : Bool
  allowed_actions : String
  status : String
  default_workflow_permissions : Option (Option String) := none
  can_approve_pull_request_reviews : Option Bool := none
  deriving Repr, DecidableEq

/-- The initial `result` dictionary of `check_actions_enabled`
(github_actions_audit.py lines 103-109). -/
def initResult (is_fork : Bool) : ActionsResult :=
  { is_fork := is_fork
    fork_status := "N/A"
    enabled := false
    allowed_actions := "none"
    status := "disabled" }

/-- Embedding of `GitHubActionsAudit.check_actions_enabled`
(github_actions_audit.py lines 92-168).  `fork` is `repo_data.get('fork',
False)`; `permResp` is the response of
`/repos/{org}/{repo}/actions/permissions`; `forkPrResp` that of
`/actions/permissions/workflows/fork-pull-requests`; `workflowResp` that of
`/actions/permissions/workflow`. -/
def check_actions_enabled (fork : Bool)
    (permResp forkPrResp workflowResp : HttpJson) : ActionsResult :=
  let result := initResult fork
  let result :=
    if fork then
      if permResp.status == 200 then
        let workflows_enabled := permResp.enabled.getD false
        if forkPrResp.status == 200 then
          let fork_workflows_enabled := forkPrResp.enabled.getD false
          { result with
            enabled := workflows_enabled && fork_workflows_enabled
            status := if workflows_enabled && fork_workflows_enabled
                      then "enabled" else "disabled"
            fork_status := if fork_workflows_enabled
                           then "workflows enabled"
                           else "workflows disabled (fork)"
            allowed_actions := permResp.allowed_actions.getD "none" }
        else
          { result with
            fork_status := "workflows disabled (fork)"
            enabled := false
            status := "disabled" }
      else
        result
    else
      if permResp.status == 200 then
        { result with
          enabled := permResp.enabled.getD false
          allowed_actions := permResp.allowed_actions.getD "none"
          status := if permResp.enabled.getD false
                    then "enabled" else "disabled" }
      else
        result
  if result.enabled then
    if workflowResp.status == 200 then
      { result with
        default_workflow_permissions :=
          some workflowResp.default_workflow_permissions
        can_approve_pull_request_reviews :=
          some (workflowResp.can_approve_pull_request_reviews.getD false) }
    else
      result
  else
    result

/-! ### Workflow file locator (`GitHubActionsAudit.get_workflow_files`) -/

/-- Checks whether `pat` occurs as a prefix of `s`, character by character;
the Python operator `in` on strings reduces to this scan. -/
def charsMatchHere : List Char → List Char → Bool
  | [], _ => true
  | _ :: _, [] => false
  | p :: ps, c :: cs => p == c && charsMatchHere ps cs

/-- `strContainsSub pat s` is the Python expression `pat in s` on strings:
`pat` occurs as a contiguous substring of `s`. -/
def strContainsSub (pat : List Char) : List Char → Bool
  | [] => pat.isEmpty
  | c :: rest => charsMatchHere pat (c :: rest) || strContainsSub pat rest

/-- Python `name.endswith(suffixStr)` on strings, via character lists. -/
def strEndsWith (s suffixStr : String) : Bool :=
  List.isSuffixOf suffixStr.data s.data

/-- One entry of the `.github/workflows` directory listing.  `fetched` is
the base64-decoded text obtained by the per-file content fetch, or `none`
when that fetch/decode raises (the file is then logged and skipped). -/
structure DirEntry where
  name : String
  fetched : Option String
  deriving Repr, DecidableEq

/-- The directory-listing response for `.github/workflows`: HTTP status
plus the parsed entries. -/
structure Listing where
  status : Nat
  entries : List DirEntry
  deriving Repr, DecidableEq

/-- A verified workflow file as returned by `get_workflow_files`: the entry
together with its decoded `content`. -/
structure WorkflowFile where
  name : String
  content : String
  deriving Repr, DecidableEq

/-- The content heuristic of `get_workflow_files` line 78:
`'on:' in content or 'jobs:' in content`. -/
def hasWorkflowMarker (content : String) : Bool :=
  strContainsSub "on:".data content.data || strContainsSub "jobs:".data content.data

/-- Embedding of `GitHubActionsAudit.get_workflow_files`
(github_actions_audit.py lines 47-90).  A 404 on the directory listing
returns `[]`; any other 4xx/5xx makes `raise_for_status` raise a
`RequestException`, which the outer handler turns into `[]`; otherwise the
entries are filtered by extension, each candidate's content is fetched
(failures are skipped), and only files containing `on:` or `jobs:` are
kept. -/
def get_workflow_files (listing : Listing) : List WorkflowFile :=
  if listing.status == 404 then []
  else if 400 ≤ listing.status ∧ listing.status < 600 then []
  else
    let workflows := listing.entries.filter fun e =>
      strEndsWith e.name ".yml" || strEndsWith e.name ".yaml"
    workflows.filterMap fun e =>
      match e.fetched with
      | none => none
      | some content =>
          if hasWorkflowMarker content then some ⟨e.name, content⟩ else none

/-! ### Staleness policy (`github_cli/commands.py`) -/

/-- Whole elapsed days between two timestamps (seconds since the epoch):
Python's `(datetime.now(timezone.utc) - last_updated).days`, where
`timedelta.days` floors towards minus infinity. -/
def days_since (now updated_at : Int) : Int :=
  (now - updated_at).fdiv 86400

/-- Embedding of `is_stale` (commands.py lines 97-101): the item is stale
when the whole elapsed days since `updated_at` reach `days_before_stale`. -/
def is_stale (now updated_at days_before_stale : Int) : Bool :=
  days_since now updated_at ≥ days_before_stale

/-- An open issue as read by `process_issues`: its number, whether the
issues API returned it as a pull request, its label names, and its
last-update timestamp (seconds since epoch, UTC). -/
structure Issue where
  number : Nat
  is_pull_request : Bool
  labels : List String
  updated_at : Int
  deriving Repr, DecidableEq

/-- The side effects `process_issues` performs on one issue. -/
structure IssueEffects where
  added_labels : List String
  closed : Bool
  deriving Repr, DecidableEq

/-- The per-issue body of the loop in `process_issues` (commands.py lines
133-150), as the effects applied to that issue. -/
def process_issue (now : Int) (stale_issue_label : String)
    (days_before_stale days_before_close : Int) (issue : Issue) :
    IssueEffects :=
  if issue.is_pull_request then ⟨[], false⟩
  else if is_stale now issue.updated_at days_before_stale then
    if !(issue.labels.contains stale_issue_label) then
      ⟨[stale_issue_label], false⟩
    else if is_stale now issue.updated_at
        (days_before_stale + days_before_close) then
      ⟨[], true⟩
    else ⟨[], false⟩
  else ⟨[], false⟩

/-- An open pull request as read by `process_pull_requests`. -/
structure PullRequest where
  number : Nat
  labels : List String
  updated_at : Int
  deriving Repr, DecidableEq

/-- The side effects `process_pull_requests` performs on one PR. -/
structure PREffects where
  added_labels : List String
  comments : List String
  closed : Bool
  deriving Repr, DecidableEq

/-- The per-PR body of the loop in `process_pull_requests` (commands.py
lines 171-189), as the effects applied to that PR. -/
def process_pull_request (now : Int) (stale_pr_message stale_issue_label : String)
    (exempt_labels : List String) (days_before_stale days_before_close : Int)
    (pr : PullRequest) : PREffects :=
  if pr.labels.any (fun l => exempt_labels.contains l) then ⟨[], [], false⟩
  else if is_stale now pr.updated_at days_before_stale then
    if !(pr.labels.contains stale_issue_label) then
      ⟨[stale_issue_label], [stale_pr_message], false⟩
    else if is_stale now pr.updated_at
        (days_before_stale + days_before_close) then
      ⟨[], [], true⟩
    else ⟨[], [], false⟩
  else ⟨[], [], false⟩

/-- The observable outcome of one iteration of a batch loop: either the
item was processed with some effects, or an exception was caught and a
line naming the item's number was logged before continuing. -/
inductive ItemOutcome (ε : Type) where
  | ok (number : Nat) (effects : ε)
  | errorLogged (number : Nat) (msg : String)
  deriving Repr, DecidableEq

/-- Embedding of the `process_issues` batch loop (commands.py lines
120-153): each issue is processed inside `try`; `fail` is the oracle
saying whether the GitHub API raises while handling that issue, in which
case the `except` clause logs the issue number and the loop `continue`s. -/
def process_issues (fail : Issue → Option String) (now : Int)
    (stale_issue_label : String) (days_before_stale days_before_close : Int)
    (issues : List Issue) : List (ItemOutcome IssueEffects) :=
  issues.map fun issue =>
    match fail issue with
    | some msg => .errorLogged issue.number msg
    | none => .ok issue.number
        (process_issue now stale_issue_label days_before_stale
          days_before_close issue)

/-- Embedding of the `process_pull_requests` batch loop (commands.py lines
156-192), with the same exception oracle as `process_issues`. -/
def process_pull_requests (fail : PullRequest → Option String) (now : Int)
    (stale_pr_message stale_issue_label : String) (exempt_labels : List String)
    (days_before_stale days_before_close : Int)
    (prs : List PullRequest) : List (ItemOutcome PREffects) :=
  prs.map fun pr =>
    match fail pr with
    | some msg => .errorLogged pr.number msg
    | none => .ok pr.number
        (process_pull_request now stale_pr_message stale_issue_label
          exempt_labels days_before_stale days_before_close pr)

/-! ### PR comment posting (`post_pr_comment`) -/

/-- An issue comment: id and body. -/
structure Comment where
  id : Int
  body : String
  deriving Repr, DecidableEq

/-- What a call to `post_pr_comment` does: creates a new comment, edits the
matching comment, returns `None` implicitly (fell off the end of the
function), or raises a `ValueError`. -/
inductive PostResult where
  | created
  | updated (id : Int)
  | noReturn
  | raisedError (msg : String)
  deriving Repr, DecidableEq

/-- Embedding of `post_pr_comment` (commands.py lines 43-70).
`pr_number`/`comment_body` feed the `all([...])` validation (Python
truthiness: `0` and `""` are falsy); `comments` is the repository's
issue-comment list; `comment_id` is the optional id (`some 0` is falsy in
`if comment_id:` and therefore takes the create branch); `apiFail` is
`some e` when the listing/edit API raises inside the `try` block. -/
def post_pr_comment (pr_number : Int) (comment_body : String)
    (comments : List Comment) (comment_id : Option Int)
    (apiFail : Option String) : PostResult :=
  if pr_number == 0 || comment_body.isEmpty then
    .raisedError "All parameters must be provided and valid."
  else
    match comment_id with
    | some cid =>
        if cid != 0 then
          match apiFail with
          | some e => .raisedError e
          | none =>
              match comments.find? (fun c => c.id == cid) with
              | some c => .updated c.id
              | none => .noReturn
        else .created
    | none => .created

/-- Discriminator: did the call raise a `ValueError`? -/
def PostResult.isError : PostResult → Bool
  | .raisedError _ => true
  | _ => false

/-! ### PEM normalization (`fix_pem_string`, github_cli/main.py lines 20-33)

`fix_pem_string` applies three `re.sub` calls.  None of the three patterns
can backtrack effectively: in `(-----BEGIN [A-Z ]+-----)\s+` the class
`[A-Z ]` excludes `-` and `\s` excludes `-`, so the greedy runs are exactly
the maximal runs, and likewise for `\s+(-----END [A-Z ]+-----)`; the third
pattern `(?<=-----\n)(.+?)(?=\n-----)` (DOTALL) takes, at each scan
position whose six preceding original characters are `-----\n`, the
shortest nonempty body followed by `\n-----`.  Each pass is therefore a
deterministic left-to-right scan over the original string, emitting
replacements and resuming after each match, as embedded below. -/

/-- The 29 characters matched by Python `re`'s `\s` on `str` patterns:
tab through carriage return (U+0009-U+000D), the file/group/record/unit
separators (U+001C-U+001F), space, next line (U+0085), no-break space
(U+00A0), ogham space mark (U+1680), the typographic spaces
U+2000-U+200A, line separator (U+2028), paragraph separator (U+2029),
narrow no-break space (U+202F), medium mathematical space (U+205F), and
ideographic space (U+3000). -/
def pySpaceChars : List Char :=
  ['\x09', '\x0a', '\x0b', '\x0c', '\x0d', '\x1c', '\x1d', '\x1e',
   '\x1f', ' ', '\x85', '\xa0', '\u1680', '\u2000', '\u2001', '\u2002',
   '\u2003', '\u2004', '\u2005', '\u2006', '\u2007', '\u2008', '\u2009',
   '\u200A', '\u2028', '\u2029', '\u202F', '\u205F', '\u3000']

/-- Python `re`'s `\s` character test for `str` patterns. -/
def isPySpace (c : Char) : Bool :=
  pySpaceChars.contains c

/-- The character class `[A-Z ]`. -/
def isNameChar (c : Char) : Bool :=
  ('A' ≤ c && c ≤ 'Z') || c == ' '

/-- Drops the literal `lit` from the front of `s`, or fails. -/
def dropLit : List Char → List Char → Option (List Char)
  | [], s => some s
  | _ :: _, [] => none
  | p :: ps, c :: cs => if p == c then dropLit ps cs else none

/-- Length of the maximal leading run of characters satisfying `p`. -/
def countRun (p : Char → Bool) : List Char → Nat
  | [] => 0
  | c :: rest => if p c then countRun p rest + 1 else 0

/-- Attempt of the pattern `(-----BEGIN [A-Z ]+-----)\s+` at the current
position: on success, the matched length together with the replacement
`\1\n`. -/
def matchBegin (s : List Char) : Option (Nat × List Char) :=
  match dropLit "-----BEGIN ".data s with
  | none => none
  | some s1 =>
      let k := countRun isNameChar s1
      if k == 0 then none
      else
        match dropLit "-----".data (s1.drop k) with
        | none => none
        | some s2 =>
            let w := countRun isPySpace s2
            if w == 0 then none
            else
              let hdr := "-----BEGIN ".data ++ s1.take k ++ "-----".data
              some (hdr.length + w, hdr ++ ['\n'])

/-- Attempt of the pattern `\s+(-----END [A-Z ]+-----)` at the current
position: on success, the matched length together with the replacement
`\n\1`. -/
def matchEndWs (s : List Char) : Option (Nat × List Char) :=
  let w := countRun isPySpace s
  if w == 0 then none
  else
    match dropLit "-----END ".data (s.drop w) with
    | none => none
    | some s1 =>
        let k := countRun isNameChar s1
        if k == 0 then none
        else
          match dropLit "-----".data (s1.drop k) with
          | none => none
          | some _ =>
              let grp := "-----END ".data ++ s1.take k ++ "-----".data
              some (w + grp.length, '\n' :: grp)

/-- `re.sub` scanning loop: at each position try the matcher; on a match
emit the replacement and skip the matched characters (our matchers always
match at least one character), otherwise emit the character and advance.
The `skip` argument counts characters still to drop from a previous
match. -/
def subScanAux (m : List Char → Option (Nat × List Char)) :
    List Char → Nat → List Char
  | [], _ => []
  | _ :: rest, skip + 1 => subScanAux m rest skip
  | c :: rest, 0 =>
      match m (c :: rest) with
      | some (len, repl) => repl ++ subScanAux m rest (len - 1)
      | none => c :: subScanAux m rest 0

/-- The fixed-width lookbehind `(?<=-----\n)`, tested on the reversed
already-scanned prefix of the original string. -/
def lookBehind (prevRev : List Char) : Bool :=
  charsMatchHere ('\n' :: "-----".data) prevRev

/-- Index of the first occurrence of the lookahead text `\n-----`. -/
def findLA : List Char → Option Nat
  | [] => none
  | c :: rest =>
      if charsMatchHere "\n-----".data (c :: rest) then some 0
      else (findLA rest).map (· + 1)

/-- The replacement of the third pass: every space of the matched body
becomes a newline. -/
def mapSpace (l : List Char) : List Char :=
  l.map fun ch => if ch == ' ' then '\n' else ch

/-- Scanning loop of the third `re.sub`: at each position whose six
preceding original characters are `-----\n`, match the shortest nonempty
body followed by `\n-----`, emit it with spaces replaced by newlines, and
resume at the match end; `prevRev` is the reversed original prefix and
`skip` counts characters of a previous match still to pass over. -/
def scan3Aux : List Char → List Char → Nat → List Char
  | _, [], _ => []
  | prevRev, c :: rest, skip + 1 => scan3Aux (c :: prevRev) rest skip
  | prevRev, c :: rest, 0 =>
      if lookBehind prevRev then
        match findLA rest with
        | some j =>
            mapSpace ((c :: rest).take (j + 1)) ++ scan3Aux (c :: prevRev) rest j
        | none => c :: scan3Aux (c :: prevRev) rest 0
      else c :: scan3Aux (c :: prevRev) rest 0

/-- Embedding of `fix_pem_string` (main.py lines 20-33): the three
`re.sub` passes in order. -/
def fix_pem_string (s : String) : String :=
  let p1 := subScanAux matchBegin s.data 0
  let p2 := subScanAux matchEndWs p1 0
  ⟨scan3Aux [] p2 0⟩

/-- Body lines joined by single newlines. -/
def joinLines : List (List Char) → List Char
  | [] => []
  | [l] => l
  | l :: ls => l ++ '\n' :: joinLines ls

/-- `mismatchWithin lit u` holds when comparing `lit` against `u`
character by character hits a mismatch before either list runs out; the
literal then fails against `u ++ rest` for every continuation `rest`. -/
def mismatchWithin : List Char → List Char → Bool
  | p :: ps, c :: cs => p != c || mismatchWithin ps cs
  | _, _ => false

/-- A PEM string already formatted with newline-separated body lines:
`-----BEGIN <name>-----`, the body lines joined by newlines, and
`-----END <name>-----`. -/
def pemChars (name : List Char) (lines : List (List Char)) : List Char :=
  "-----BEGIN ".data ++ name ++ "-----".data ++
    '\n' :: joinLines lines ++
    '\n' :: ("-----END ".data ++ name ++ "-----".data)

/-- `pemChars` packaged on `String`s. -/
def pemString (name : String) (body : List String) : String :=
  ⟨pemChars name.data (body.map String.data)⟩

/-! ### Claims about the Actions-Permission resolver -/

/-- C1: for a fork repository, the Actions-Permission result reports
`enabled = true` if and only if both the repository-level
actions-permissions call and the fork-pull-request-specific call return
HTTP 200 with a response whose `enabled` field is true; every other
combination yields `enabled = false`. -/
theorem check_actions_enabled_fork_iff
    (permResp forkPrResp workflowResp : HttpJson) :
    (check_actions_enabled true permResp forkPrResp workflowResp).enabled = true ↔
      (permResp.status = 200 ∧ permResp.enabled.getD false = true ∧
       forkPrResp.status = 200 ∧ forkPrResp.enabled.getD false = true) := by
  unfold check_actions_enabled initResult
  split_ifs <;> simp_all <;> split_ifs <;> simp_all

/-- Witness for C1 at concrete responses: both calls 200 with
`enabled = true` gives `enabled = true`, and a disabled fork-PR response
gives `enabled = false`. -/
theorem check_actions_enabled_fork_iff_witness :
    (check_actions_enabled true ⟨200, some true, some "all", none, none⟩
      ⟨200, some true, none, none, none⟩ ⟨500, none, none, none, none⟩).enabled
      = true ∧
    ¬ (check_actions_enabled true ⟨200, some true, some "all", none, none⟩
      ⟨200, some false, none, none, none⟩ ⟨500, none, none, none, none⟩).enabled
      = true :=
  ⟨(check_actions_enabled_fork_iff _ _ _).mpr
      ⟨rfl, rfl, rfl, rfl⟩,
   fun h => by
     have := (check_actions_enabled_fork_iff
       ⟨200, some true, some "all", none, none⟩
       ⟨200, some false, none, none, none⟩
       ⟨500, none, none, none, none⟩).mp h
     simp at this⟩

/-- C4 (amended): for a fork repository whose repository-level
actions-permissions call returns a non-200 status, the result keeps its
initial values — `enabled = false`, `status = "disabled"` and
`fork_status = "N/A"` — and is independent of the responses of the
remaining permission endpoints (they are never consulted). -/
theorem check_actions_enabled_fork_perm_unavailable
    (permResp forkPrResp workflowResp : HttpJson)
    (h : permResp.status ≠ 200) :
    check_actions_enabled true permResp forkPrResp workflowResp =
      { is_fork := true, fork_status := "N/A", enabled := false,
        allowed_actions := "none", status := "disabled",
        default_workflow_permissions := none,
        can_approve_pull_request_reviews := none } := by
  unfold check_actions_enabled initResult
  split_ifs <;> simp_all

/-- Witness for C4's amended theorem: a 404 on the repository-level
permissions call of a fork. -/
theorem check_actions_enabled_fork_perm_unavailable_witness :
    check_actions_enabled true ⟨404, none, none, none, none⟩
      ⟨200, some true, none, none, none⟩ ⟨200, none, none, none, none⟩ =
      { is_fork := true, fork_status := "N/A", enabled := false,
        allowed_actions := "none", status := "disabled",
        default_workflow_permissions := none,
        can_approve_pull_request_reviews := none } :=
  check_actions_enabled_fork_perm_unavailable _ _ _ (by decide)

/-- Counterexample to C4 as stated: with a 404 on the repository-level
permissions call the resolver leaves `fork_status = "N/A"`, not the claimed
`"workflows disabled (fork)"`. -/
theorem check_actions_enabled_fork_perm_unavailable_cex :
    (check_actions_enabled true ⟨404, none, none, none, none⟩
      ⟨200, some true, none, none, none⟩
      ⟨200, none, none, none, none⟩).fork_status = "N/A" ∧
    ("N/A" : String) ≠ "workflows disabled (fork)" := by
  constructor
  · rfl
  · decide

/-- C6: for a non-fork repository, `enabled` equals the `enabled` field of
the top-level permissions response when that call returns 200 (an absent
field counting as false), `allowed_actions` defaults to `"none"` when the
field is absent or the call is non-200, and on a non-200 `enabled`
defaults to false. -/
theorem check_actions_enabled_nonfork
    (permResp forkPrResp workflowResp : HttpJson) :
    (permResp.status = 200 →
      (check_actions_enabled false permResp forkPrResp workflowResp).enabled =
        permResp.enabled.getD false) ∧
    ((permResp.allowed_actions = none ∨ permResp.status ≠ 200) →
      (check_actions_enabled false permResp forkPrResp
        workflowResp).allowed_actions = "none") ∧
    (permResp.status ≠ 200 →
      (check_actions_enabled false permResp forkPrResp
        workflowResp).enabled = false) := by
  unfold check_actions_enabled initResult
  split_ifs <;> simp_all

/-- Witness for C6: a 200 response with `enabled = true` and no
`allowed_actions` field, and a 503 response. -/
theorem check_actions_enabled_nonfork_witness :
    (check_actions_enabled false ⟨200, some true, none, none, none⟩
      ⟨0, none, none, none, none⟩ ⟨0, none, none, none, none⟩).enabled =
      (some true).getD false ∧
    (check_actions_enabled false ⟨200, some true, none, none, none⟩
      ⟨0, none, none, none, none⟩ ⟨0, none, none, none, none⟩).allowed_actions
      = "none" ∧
    (check_actions_enabled false ⟨503, some true, some "all", none, none⟩
      ⟨0, none, none, none, none⟩ ⟨0, none, none, none, none⟩).enabled =
      false :=
  ⟨(check_actions_enabled_nonfork _ _ _).1 rfl,
   (check_actions_enabled_nonfork _ _ _).2.1 (Or.inl rfl),
   (check_actions_enabled_nonfork ⟨503, some true, some "all", none, none⟩
     _ _).2.2 (by decide)⟩

/-! ### Claims about the workflow file locator -/

/-- C7: a 404 on the workflows-directory listing yields `[]` rather than an
error; for a 200 listing an entry is in the result iff its name ends in
`.yml`/`.yaml` and its fetched decoded content contains `on:` or `jobs:`;
in particular `deploy.txt` is always excluded, a `ci.yml` without either
marker is excluded, and a `ci.yml` containing `jobs:` is included. -/
theorem get_workflow_files_characterization :
    (∀ l : Listing, l.status = 404 → get_workflow_files l = []) ∧
    (∀ (l : Listing) (wf : WorkflowFile), l.status = 200 →
      (wf ∈ get_workflow_files l ↔
        (⟨wf.name, some wf.content⟩ : DirEntry) ∈ l.entries ∧
        (strEndsWith wf.name ".yml" || strEndsWith wf.name ".yaml") = true ∧
        hasWorkflowMarker wf.content = true)) ∧
    (∀ (l : Listing) (c : String),
      (⟨"deploy.txt", c⟩ : WorkflowFile) ∉ get_workflow_files l) ∧
    get_workflow_files ⟨200, [⟨"ci.yml", some "name: build\nsteps: x"⟩]⟩ = [] ∧
    get_workflow_files ⟨200, [⟨"ci.yml", some "jobs:\n  build: x"⟩]⟩ =
      [⟨"ci.yml", "jobs:\n  build: x"⟩] := by
  refine ⟨?_, ?_, ?_, by decide, by decide⟩
  · intro l h404
    unfold get_workflow_files
    simp [h404]
  · intro l wf h200
    unfold get_workflow_files
    rw [if_neg (by simp [h200]), if_neg (by simp [h200])]
    rw [List.mem_filterMap]
    constructor
    · rintro ⟨e, he, hg⟩
      rw [List.mem_filter] at he
      obtain ⟨hmem, hext⟩ := he
      cases hfe : e.fetched with
      | none => rw [hfe] at hg; simp at hg
      | some c =>
          rw [hfe] at hg
          by_cases hmark : hasWorkflowMarker c = true
          · simp only [hmark, if_true, Option.some.injEq] at hg
            obtain rfl := hg.symm
            refine ⟨?_, hext, hmark⟩
            have he : e = ⟨e.name, some c⟩ := by cases e; cases hfe; rfl
            exact he ▸ hmem
          · simp [hmark] at hg
    · rintro ⟨hmem, hext, hmark⟩
      refine ⟨⟨wf.name, some wf.content⟩, List.mem_filter.mpr ⟨hmem, hext⟩, ?_⟩
      have : wf = ⟨wf.name, wf.content⟩ := by cases wf; rfl
      simp [hmark, ← this]
  · intro l c hmem
    unfold get_workflow_files at hmem
    split at hmem
    · exact absurd hmem (List.not_mem_nil _)
    split at hmem
    · exact absurd hmem (List.not_mem_nil _)
    rw [List.mem_filterMap] at hmem
    obtain ⟨e, he, hg⟩ := hmem
    rw [List.mem_filter] at he
    obtain ⟨_, hext⟩ := he
    have hname : e.name = "deploy.txt" := by
      cases hfe : e.fetched with
      | none => rw [hfe] at hg; simp at hg
      | some c' =>
          rw [hfe] at hg
          by_cases hmark : hasWorkflowMarker c' = true
          · simp only [hmark, if_true, Option.some.injEq] at hg
            exact congrArg WorkflowFile.name hg
          · simp [hmark] at hg
    rw [hname] at hext
    exact absurd hext (by decide)

/-- Witness for C7 at a concrete 404 listing and a concrete verified
workflow file. -/
theorem get_workflow_files_characterization_witness :
    get_workflow_files ⟨404, [⟨"ci.yml", some "jobs: x"⟩]⟩ = [] ∧
    (⟨"ci.yml", "jobs: x"⟩ : WorkflowFile) ∈
      get_workflow_files ⟨200, [⟨"ci.yml", some "jobs: x"⟩]⟩ ∧
    (⟨"deploy.txt", "jobs: x"⟩ : WorkflowFile) ∉
      get_workflow_files ⟨200, [⟨"deploy.txt", some "jobs: x"⟩]⟩ :=
  ⟨get_workflow_files_characterization.1 _ rfl,
   (get_workflow_files_characterization.2.1 _ _ rfl).mpr
     (by refine ⟨?_, ?_, ?_⟩ <;> decide),
   get_workflow_files_characterization.2.2.1 _ _⟩

/-! ### Claims about the staleness policy -/

/-- C5: `is_stale` is true iff the elapsed whole days between now and the
timestamp reach the threshold; it is false when the threshold exceeds the
elapsed whole days by one and true when the threshold equals them. -/
theorem is_stale_spec (now ts n : Int) :
    (is_stale now ts n = true ↔ n ≤ days_since now ts) ∧
    is_stale now ts (days_since now ts + 1) = false ∧
    is_stale now ts (days_since now ts) = true := by
  refine ⟨?_, ?_, ?_⟩
  · simp [is_stale]
  · simp only [is_stale, ge_iff_le, decide_eq_false_iff_not, not_le]
    omega
  · simp [is_stale]

/-- Witness for C5 at `now` 20 whole days after `ts = 0`. -/
theorem is_stale_spec_witness :
    is_stale 1728000 0 (days_since 1728000 0) = true ∧
    is_stale 1728000 0 (days_since 1728000 0 + 1) = false :=
  ⟨(is_stale_spec 1728000 0 0).2.2, (is_stale_spec 1728000 0 0).2.1⟩

/-- C2: a stale issue without the stale label gets the label and is not
closed in that run; a stale issue already carrying the label is closed
once the elapsed days reach `days_before_stale + days_before_close`; a
non-stale issue gets no action. -/
theorem process_issue_transitions (now : Int) (label : String)
    (dbs dbc : Int) (issue : Issue) (hpr : issue.is_pull_request = false) :
    (dbs ≤ days_since now issue.updated_at →
      issue.labels.contains label = false →
      process_issue now label dbs dbc issue = ⟨[label], false⟩) ∧
    (dbs ≤ days_since now issue.updated_at →
      issue.labels.contains label = true →
      dbs + dbc ≤ days_since now issue.updated_at →
      process_issue now label dbs dbc issue = ⟨[], true⟩) ∧
    (¬ dbs ≤ days_since now issue.updated_at →
      process_issue now label dbs dbc issue = ⟨[], false⟩) := by
  unfold process_issue is_stale
  refine ⟨?_, ?_, ?_⟩ <;> intros <;> simp_all

/-- Witness for C2: the spec's example — last update 20 days ago,
`days_before_stale = 14`, `days_before_close = 5`: without the label the
issue is labeled and not closed; with the label it is closed. -/
theorem process_issue_transitions_witness :
    process_issue 1728000 "S-stale" 14 5 ⟨1, false, [], 0⟩ =
      ⟨["S-stale"], false⟩ ∧
    process_issue 1728000 "S-stale" 14 5 ⟨1, false, ["S-stale"], 0⟩ =
      ⟨[], true⟩ :=
  ⟨(process_issue_transitions 1728000 "S-stale" 14 5
      ⟨1, false, [], 0⟩ rfl).1 (by decide) (by decide),
   (process_issue_transitions 1728000 "S-stale" 14 5
      ⟨1, false, ["S-stale"], 0⟩ rfl).2.1 (by decide) (by decide) (by decide)⟩

/-- C8: a pull request carrying an exempt label is skipped outright — no
label added, no comment posted, not closed — whatever the timestamps and
thresholds are. -/
theorem process_pull_request_exempt (now : Int) (msg label : String)
    (exempt : List String) (dbs dbc : Int) (pr : PullRequest)
    (h : ∃ l, l ∈ pr.labels ∧ l ∈ exempt) :
    process_pull_request now msg label exempt dbs dbc pr = ⟨[], [], false⟩ := by
  obtain ⟨l, hl, he⟩ := h
  have hany : pr.labels.any (fun x => exempt.contains x) = true := by
    rw [List.any_eq_true]
    exact ⟨l, hl, by simpa using he⟩
  unfold process_pull_request
  rw [if_pos hany]

/-- Witness for C8: a maximally stale PR whose label set meets the exempt
list is untouched. -/
theorem process_pull_request_exempt_witness :
    process_pull_request 8640000 "msg" "S-stale" ["S-exempt-stale"] 14 5
      ⟨7, ["S-exempt-stale"], 0⟩ = ⟨[], [], false⟩ :=
  process_pull_request_exempt 8640000 "msg" "S-stale" ["S-exempt-stale"] 14 5
    ⟨7, ["S-exempt-stale"], 0⟩ ⟨"S-exempt-stale", by decide, by decide⟩

/-- C9: in both batch loops, a per-item exception is caught and logged
with that item's number and the remaining items are still processed: the
batch output splits around the failing item, with the preceding and
following items handled exactly as they would be on their own. -/
theorem batch_continues_on_failure :
    (∀ (fail : Issue → Option String) (now : Int) (label : String)
        (dbs dbc : Int) (pre : List Issue) (i : Issue) (rest : List Issue)
        (msg : String), fail i = some msg →
      process_issues fail now label dbs dbc (pre ++ i :: rest) =
        process_issues fail now label dbs dbc pre ++
          ItemOutcome.errorLogged i.number msg ::
            process_issues fail now label dbs dbc rest) ∧
    (∀ (fail : PullRequest → Option String) (now : Int) (m lb : String)
        (ex : List String) (dbs dbc : Int) (pre : List PullRequest)
        (p : PullRequest) (rest : List PullRequest) (msg : String),
      fail p = some msg →
      process_pull_requests fail now m lb ex dbs dbc (pre ++ p :: rest) =
        process_pull_requests fail now m lb ex dbs dbc pre ++
          ItemOutcome.errorLogged p.number msg ::
            process_pull_requests fail now m lb ex dbs dbc rest) := by
  constructor <;> intro fail
  · intro now label dbs dbc pre i rest msg hfail
    simp [process_issues, hfail]
  · intro now m lb ex dbs dbc pre p rest msg hfail
    simp [process_pull_requests, hfail]

/-- Witness for C9: the middle item of a three-issue batch (and of a
two-PR batch) fails; both neighbours are still processed. -/
theorem batch_continues_on_failure_witness :
    process_issues (fun i => if i.number == 2 then some "boom" else none)
      1728000 "S-stale" 14 5 [⟨1, false, [], 0⟩, ⟨2, false, [], 0⟩,
        ⟨3, false, [], 1728000⟩] =
      process_issues (fun i => if i.number == 2 then some "boom" else none)
        1728000 "S-stale" 14 5 [⟨1, false, [], 0⟩] ++
        ItemOutcome.errorLogged 2 "boom" ::
          process_issues (fun i => if i.number == 2 then some "boom" else none)
            1728000 "S-stale" 14 5 [⟨3, false, [], 1728000⟩] ∧
    process_pull_requests (fun p => if p.number == 1 then some "net" else none)
      1728000 "m" "S-stale" [] 14 5 [⟨1, [], 0⟩, ⟨2, [], 0⟩] =
      process_pull_requests (fun p => if p.number == 1 then some "net" else none)
        1728000 "m" "S-stale" [] 14 5 [] ++
        ItemOutcome.errorLogged 1 "net" ::
          process_pull_requests
            (fun p => if p.number == 1 then some "net" else none)
            1728000 "m" "S-stale" [] 14 5 [⟨2, [], 0⟩] :=
  ⟨batch_continues_on_failure.1 _ 1728000 "S-stale" 14 5 [⟨1, false, [], 0⟩]
      ⟨2, false, [], 0⟩ [⟨3, false, [], 1728000⟩] "boom" rfl,
   batch_continues_on_failure.2 _ 1728000 "m" "S-stale" [] 14 5 []
      ⟨1, [], 0⟩ [⟨2, [], 0⟩] "net" rfl⟩

/-! ### Claims about `post_pr_comment` -/

/-- Counterexample to C3 as stated: with a supplied `comment_id` matching
no comment, `post_pr_comment` raises no error and creates nothing — it
falls off the end of the function and implicitly returns `None`. -/
theorem post_pr_comment_no_match_cex :
    (post_pr_comment 1 "body" [⟨5, "x"⟩] (some 7) none).isError = false ∧
    post_pr_comment 1 "body" [⟨5, "x"⟩] (some 7) none ≠ PostResult.created ∧
    post_pr_comment 1 "body" [⟨5, "x"⟩] (some 7) none =
      PostResult.noReturn := by
  decide

/-- C3 (amended): when a nonzero `comment_id` is supplied, the inputs pass
validation, the API does not raise, and no scanned comment has that id,
`post_pr_comment` neither creates a comment nor reports success nor raises:
it silently returns `None`. -/
theorem post_pr_comment_no_match (pr_number : Int) (body : String)
    (comments : List Comment) (cid : Int)
    (hpr : pr_number ≠ 0) (hbody : body.isEmpty = false) (hcid : cid ≠ 0)
    (hnone : ∀ c ∈ comments, c.id ≠ cid) :
    post_pr_comment pr_number body comments (some cid) none =
      PostResult.noReturn := by
  have hfind : comments.find? (fun c => c.id == cid) = none := by
    rw [List.find?_eq_none]
    intro c hc
    simpa using hnone c hc
  unfold post_pr_comment
  rw [if_neg (by simp [hpr, hbody])]
  simp only [hcid, hfind]
  rw [if_pos (by simpa using hcid)]

/-- Witness for C3's amended theorem: one comment with id 5, requested id
7. -/
theorem post_pr_comment_no_match_witness :
    post_pr_comment 1 "body" [⟨5, "x"⟩] (some 7) none =
      PostResult.noReturn :=
  post_pr_comment_no_match 1 "body" [⟨5, "x"⟩] 7 (by decide) (by decide)
    (by decide) (by decide)

/-- Counterexample to C10 as stated: `fix_pem_string` is not idempotent.
On `"-----\n----- \n----- \n-----"` the first application rewrites the
space of the first body region into a newline, which creates a new
`-----\n` lookbehind boundary; the second application therefore matches a
region the first one could not and rewrites one more space. -/
theorem fix_pem_string_not_idempotent_cex :
    fix_pem_string (fix_pem_string "-----\n----- \n----- \n-----") ≠
      fix_pem_string "-----\n----- \n----- \n-----" := by
  decide

/-! ### Helper lemmas for the scanning passes -/

theorem dropLit_self (lit r : List Char) : dropLit lit (lit ++ r) = some r := by
  induction lit with
  | nil => rfl
  | cons p ps ih => simp [dropLit, ih]

theorem dropLit_head_ne {p c : Char} (ps cs : List Char) (h : ¬ p = c) :
    dropLit (p :: ps) (c :: cs) = none := by
  simp [dropLit, h]

theorem dropLit_of_mismatchWithin (lit : List Char) :
    ∀ (u rest : List Char), mismatchWithin lit u = true →
      dropLit lit (u ++ rest) = none := by
  induction lit with
  | nil => intro u rest h; simp [mismatchWithin] at h
  | cons p ps ih =>
      intro u rest h
      cases u with
      | nil => simp [mismatchWithin] at h
      | cons c cs =>
          by_cases hpc : p = c
          · subst hpc
            simp only [mismatchWithin, bne_self_eq_false, Bool.false_or] at h
            simpa [dropLit] using ih cs rest h
          · exact dropLit_head_ne _ _ hpc

theorem countRun_cons_false {p : Char → Bool} {c : Char} (r : List Char)
    (h : p c = false) : countRun p (c :: r) = 0 := by
  simp [countRun, h]

theorem countRun_all (p : Char → Bool) (a r : List Char)
    (h : ∀ c ∈ a, p c = true) :
    countRun p (a ++ r) = a.length + countRun p r := by
  induction a with
  | nil => simp
  | cons c cs ih =>
      have hc : p c = true := h c (by simp)
      have ih' := ih fun d hd => h d (by simp [hd])
      simp [countRun, hc, ih']
      omega

theorem charsMatchHere_self_append (p r : List Char) :
    charsMatchHere p (p ++ r) = true := by
  induction p with
  | nil => rfl
  | cons c cs ih => simp [charsMatchHere, ih]

theorem charsMatchHere_head_ne {p c : Char} (ps cs : List Char) (h : ¬ p = c) :
    charsMatchHere (p :: ps) (c :: cs) = false := by
  simp [charsMatchHere, h]

theorem subScanAux_skip (m : List Char → Option (Nat × List Char))
    (z w : List Char) :
    subScanAux m (z ++ w) z.length = subScanAux m w 0 := by
  induction z with
  | nil => rfl
  | cons c z' ih => simpa [subScanAux] using ih

theorem subScanAux_walk (m : List Char → Option (Nat × List Char))
    (x y : List Char)
    (h : ∀ t, t <:+ x ++ y → y.length < t.length → m t = none) :
    subScanAux m (x ++ y) 0 = x ++ subScanAux m y 0 := by
  induction x with
  | nil => simp
  | cons c x' ih =>
      have hm : m (c :: (x' ++ y)) = none := by
        refine h _ (by rw [List.cons_append]) ?_
        simp
        omega
      rw [List.cons_append]
      rw [show subScanAux m (c :: (x' ++ y)) 0 =
        c :: subScanAux m (x' ++ y) 0 from by simp [subScanAux, hm]]
      rw [ih fun t ht hlen => h t (ht.trans (by
        rw [List.cons_append]; exact List.suffix_cons c (x' ++ y))) hlen]
      simp

theorem subScanAux_match (m : List Char → Option (Nat × List Char))
    (x y r : List Char) (hx : x ≠ [])
    (hm : m (x ++ y) = some (x.length, r)) :
    subScanAux m (x ++ y) 0 = r ++ subScanAux m y 0 := by
  cases x with
  | nil => exact absurd rfl hx
  | cons c x' =>
      rw [List.cons_append] at hm ⊢
      simp only [List.length_cons] at hm
      rw [show subScanAux m (c :: (x' ++ y)) 0 =
        r ++ subScanAux m (x' ++ y) (x'.length + 1 - 1) from by
          simp [subScanAux, hm]]
      simp [subScanAux_skip]

theorem scan3Aux_skip (prev z w : List Char) :
    scan3Aux prev (z ++ w) z.length = scan3Aux (z.reverse ++ prev) w 0 := by
  induction z generalizing prev with
  | nil => rfl
  | cons c z' ih =>
      calc scan3Aux prev ((c :: z') ++ w) (c :: z').length
          = scan3Aux (c :: prev) (z' ++ w) z'.length := by simp [scan3Aux]
        _ = scan3Aux (z'.reverse ++ (c :: prev)) w 0 := ih (c :: prev)
        _ = scan3Aux ((c :: z').reverse ++ prev) w 0 := by
              rw [List.reverse_cons, List.append_assoc]; rfl

theorem scan3Aux_walk (prev x y : List Char)
    (h : ∀ t u, x = t ++ u → u ≠ [] → lookBehind (t.reverse ++ prev) = false) :
    scan3Aux prev (x ++ y) 0 = x ++ scan3Aux (x.reverse ++ prev) y 0 := by
  induction x generalizing prev with
  | nil => simp
  | cons c x' ih =>
      have hlb : lookBehind prev = false := by
        simpa using h [] (c :: x') rfl (by simp)
      have step : scan3Aux prev ((c :: x') ++ y) 0 =
          c :: scan3Aux (c :: prev) (x' ++ y) 0 := by
        rw [List.cons_append]
        simp [scan3Aux, hlb]
      rw [step]
      have h' : ∀ t u, x' = t ++ u → u ≠ [] →
          lookBehind (t.reverse ++ (c :: prev)) = false := by
        intro t u heq hu
        have := h (c :: t) u (by rw [heq, List.cons_append]) hu
        rwa [List.reverse_cons, List.append_assoc] at this
      rw [ih (c :: prev) h']
      rw [List.reverse_cons, List.append_assoc]
      rfl

theorem scan3Aux_match (prev : List Char) (c : Char) (z w : List Char)
    (hlb : lookBehind prev = true)
    (hfind : findLA (z ++ w) = some z.length) :
    scan3Aux prev (c :: (z ++ w)) 0 =
      mapSpace (c :: z) ++ scan3Aux ((c :: z).reverse ++ prev) w 0 := by
  have step : scan3Aux prev (c :: (z ++ w)) 0 =
      mapSpace ((c :: (z ++ w)).take (z.length + 1)) ++
        scan3Aux (c :: prev) (z ++ w) z.length := by
    simp [scan3Aux, hlb, hfind]
  rw [step]
  rw [List.take_succ_cons, List.take_left]
  rw [scan3Aux_skip, List.reverse_cons, List.append_assoc]
  rfl

theorem findLA_append (z w : List Char)
    (h : ∀ t u, z = t ++ u → u ≠ [] →
      charsMatchHere "\n-----".data (u ++ w) = false)
    (hw : charsMatchHere "\n-----".data w = true) :
    findLA (z ++ w) = some z.length := by
  induction z with
  | nil =>
      cases w with
      | nil => simp [charsMatchHere] at hw
      | cons d w' => simp [findLA, hw]
  | cons c z' ih =>
      have hfail : charsMatchHere "\n-----".data ((c :: z') ++ w) = false :=
        h [] (c :: z') rfl (by simp)
      rw [List.cons_append] at hfail
      have h' : ∀ t u, z' = t ++ u → u ≠ [] →
          charsMatchHere "\n-----".data (u ++ w) = false := by
        intro t u heq hu
        exact h (c :: t) u (by rw [heq, List.cons_append]) hu
      rw [List.cons_append]
      rw [show findLA (c :: (z' ++ w)) =
        (findLA (z' ++ w)).map (· + 1) from by simp [findLA, hfail]]
      rw [ih h']
      simp

theorem az_facts {c : Char} (h1 : 'A' ≤ c) (h2 : c ≤ 'Z') :
    c ≠ '-' ∧ c ≠ '\n' ∧ isPySpace c = false ∧ isNameChar c = true := by
  refine ⟨?_, ?_, ?_, ?_⟩
  · rintro rfl; exact absurd h1 (by decide)
  · rintro rfl; exact absurd h1 (by decide)
  · have hsep : ∀ d ∈ pySpaceChars, d < 'A' ∨ 'Z' < d := by decide
    have hnm : c ∉ pySpaceChars := by
      intro hc
      rcases hsep c hc with h | h
      · exact absurd h1 (not_le.mpr h)
      · exact absurd h2 (not_le.mpr h)
    simpa [isPySpace] using hnm
  · simp [isNameChar, h1, h2]

theorem pySpace_ne_nl {c : Char} (h : isPySpace c = false) : c ≠ '\n' := by
  rintro rfl; exact absurd h (by decide)

theorem pySpace_ne_space {c : Char} (h : isPySpace c = false) : c ≠ ' ' := by
  rintro rfl; exact absurd h (by decide)

theorem suffix_append_split {α : Type} {t x y : List α} (h : t <:+ x ++ y) :
    t <:+ y ∨ ∃ u, u <:+ x ∧ u ≠ [] ∧ t = u ++ y := by
  induction x with
  | nil => left; simpa using h
  | cons c x' ih =>
      rw [List.cons_append] at h
      rcases List.suffix_cons_iff.mp h with h1 | h2
      · right
        exact ⟨c :: x', List.suffix_refl _, by simp, by rw [h1, List.cons_append]⟩
      · rcases ih h2 with h3 | ⟨u, hu, hne, rfl⟩
        · left; exact h3
        · right; exact ⟨u, hu.trans (List.suffix_cons c x'), hne, rfl⟩

/-- The well-formedness hypothesis on PEM body lines: at least one line,
every line nonempty, no hyphens and no whitespace inside a line. -/
def GoodLines (lines : List (List Char)) : Prop :=
  lines ≠ [] ∧ ∀ l ∈ lines, l ≠ [] ∧ ∀ c ∈ l, c ≠ '-' ∧ isPySpace c = false

theorem joinLines_head {lines : List (List Char)} (h : GoodLines lines) :
    ∃ d ds, joinLines lines = d :: ds ∧ d ≠ '-' ∧ isPySpace d = false := by
  obtain ⟨hne, hall⟩ := h
  cases lines with
  | nil => exact absurd rfl hne
  | cons l ls =>
      obtain ⟨hl, hcs⟩ := hall l (by simp)
      cases l with
      | nil => exact absurd rfl hl
      | cons d l' =>
          have hd := hcs d (by simp)
          cases ls with
          | nil => exact ⟨d, l', rfl, hd.1, hd.2⟩
          | cons l2 ls' =>
              exact ⟨d, l' ++ '\n' :: joinLines (l2 :: ls'),
                by simp [joinLines], hd.1, hd.2⟩

theorem joinLines_reverse_head {lines : List (List Char)} (h : GoodLines lines) :
    ∃ d ds, (joinLines lines).reverse = d :: ds ∧ d ≠ '-' ∧
      isPySpace d = false := by
  obtain ⟨hne, hall⟩ := h
  induction lines with
  | nil => exact absurd rfl hne
  | cons l ls ih =>
      cases ls with
      | nil =>
          obtain ⟨hl, hcs⟩ := hall l (by simp)
          cases hrev : l.reverse with
          | nil => exact absurd (by simpa using hrev) hl
          | cons d ds =>
              have hd : d ∈ l := by
                rw [← List.mem_reverse, hrev]; simp
              exact ⟨d, ds, by simp [joinLines, hrev], (hcs d hd).1, (hcs d hd).2⟩
      | cons l2 ls' =>
          obtain ⟨d, ds, hJ, hd1, hd2⟩ := ih (by simp)
            (fun l' hl' => hall l' (by simp [hl']))
          refine ⟨d, ds ++ '\n' :: l.reverse, ?_, hd1, hd2⟩
          rw [show joinLines (l :: l2 :: ls') = l ++ '\n' :: joinLines (l2 :: ls')
            from rfl]
          rw [List.reverse_append, List.reverse_cons, List.append_assoc, hJ]
          rfl

theorem joinLines_mem {lines : List (List Char)}
    (h : ∀ l ∈ lines, ∀ c ∈ l, c ≠ '-' ∧ isPySpace c = false) :
    ∀ c ∈ joinLines lines, c = '\n' ∨ (c ≠ '-' ∧ isPySpace c = false) := by
  induction lines with
  | nil => simp [joinLines]
  | cons l ls ih =>
      cases ls with
      | nil =>
          intro c hc
          exact Or.inr (h l (by simp) c (by simpa [joinLines] using hc))
      | cons l2 ls' =>
          intro c hc
          rw [show joinLines (l :: l2 :: ls') = l ++ '\n' :: joinLines (l2 :: ls')
            from rfl] at hc
          rcases List.mem_append.mp hc with hc1 | hc2
          · exact Or.inr (h l (by simp) c hc1)
          · rcases List.mem_cons.mp hc2 with rfl | hc3
            · exact Or.inl rfl
            · exact ih (fun l' hl' => h l' (by simp [hl'])) c hc3

theorem joinLines_suffix {lines : List (List Char)} (h : GoodLines lines) :
    ∀ t, t <:+ joinLines lines → t ≠ [] →
      (∃ c cs, t = c :: cs ∧ c ≠ '-' ∧ isPySpace c = false) ∨
      (∃ d ds, t = '\n' :: d :: ds ∧ d ≠ '-' ∧ isPySpace d = false) := by
  obtain ⟨hne, hall⟩ := h
  induction lines with
  | nil => exact absurd rfl hne
  | cons l ls ih =>
      cases ls with
      | nil =>
          intro t ht htne
          cases t with
          | nil => exact absurd rfl htne
          | cons c cs =>
              have hcl : c ∈ l := ht.subset (by simp)
              exact Or.inl ⟨c, cs, rfl, (hall l (by simp)).2 c hcl⟩
      | cons l2 ls' =>
          intro t ht htne
          rw [show joinLines (l :: l2 :: ls') = l ++ '\n' :: joinLines (l2 :: ls')
            from rfl] at ht
          have hgood2 : GoodLines (l2 :: ls') :=
            ⟨by simp, fun l' hl' => hall l' (by simp [hl'])⟩
          rcases suffix_append_split ht with h1 | ⟨u, hu, hune, rfl⟩
          · rcases List.suffix_cons_iff.mp h1 with h2 | h3
            · obtain ⟨d, ds, hJ, hd1, hd2⟩ := joinLines_head hgood2
              exact Or.inr ⟨d, ds, by rw [h2, hJ], hd1, hd2⟩
            · exact ih (by simp) (fun l' hl' => hall l' (by simp [hl'])) t h3 htne
          · cases u with
            | nil => exact absurd rfl hune
            | cons c cs =>
                have hcl : c ∈ l := hu.subset (by simp)
                exact Or.inl ⟨c, cs ++ '\n' :: joinLines (l2 :: ls'),
                  by simp, (hall l (by simp)).2 c hcl⟩

theorem nameChar_facts {c : Char} (h : ('A' ≤ c ∧ c ≤ 'Z') ∨ c = ' ') :
    c ≠ '-' ∧ c ≠ '\n' ∧ isNameChar c = true := by
  rcases h with ⟨h1, h2⟩ | rfl
  · have f := az_facts h1 h2
    exact ⟨f.1, f.2.1, f.2.2.2⟩
  · exact ⟨by decide, by decide, by decide⟩

theorem matchBegin_none_head {c : Char} (l : List Char) (h : c ≠ '-') :
    matchBegin (c :: l) = none := by
  have hd : dropLit "-----BEGIN ".data (c :: l) = none :=
    dropLit_head_ne _ _ (fun hh => h hh.symm)
  simp [matchBegin, hd]

theorem matchBegin_none_of_dropLit {s : List Char}
    (h : dropLit "-----BEGIN ".data s = none) : matchBegin s = none := by
  simp [matchBegin, h]

theorem matchEndWs_none_head {c : Char} (l : List Char)
    (h : isPySpace c = false) : matchEndWs (c :: l) = none := by
  simp [matchEndWs, countRun_cons_false _ h]

theorem matchEndWs_none_ws_then {a c : Char} (l : List Char)
    (h1 : isPySpace a = true) (h2 : isPySpace c = false) (h3 : c ≠ '-') :
    matchEndWs (a :: c :: l) = none := by
  have hw : countRun isPySpace (a :: c :: l) = 1 := by
    simp [countRun, h1, h2]
  have hd : dropLit "-----END ".data (c :: l) = none :=
    dropLit_head_ne _ _ (fun hh => h3 hh.symm)
  simp [matchEndWs, hw, hd]

theorem matchEndWs_none_of_dropCond (s : List Char)
    (h : dropLit "-----END ".data (s.drop (countRun isPySpace s)) = none) :
    matchEndWs s = none := by
  by_cases hw : (countRun isPySpace s == 0) = true
  · simp [matchEndWs, hw]
  · simp [matchEndWs, hw, h]

theorem nameish_dropCond (v : List Char)
    (hv : ∀ c ∈ v, ('A' ≤ c ∧ c ≤ 'Z') ∨ c = ' ') (rest : List Char) :
    dropLit "-----END ".data
      ((v ++ ("-----".data ++ '\n' :: rest)).drop
        (countRun isPySpace (v ++ ("-----".data ++ '\n' :: rest)))) = none := by
  induction v with
  | nil =>
      simp only [List.nil_append]
      rw [show countRun isPySpace ("-----".data ++ '\n' :: rest) = 0 from
        countRun_cons_false _ (by decide)]
      rw [List.drop_zero]
      rw [show "-----".data ++ '\n' :: rest =
        ("-----".data ++ ['\n']) ++ rest from by simp]
      exact dropLit_of_mismatchWithin _ _ _ (by decide)
  | cons c v' ih =>
      rcases hv c (by simp) with ⟨h1, h2⟩ | rfl
      · have hc := az_facts h1 h2
        rw [List.cons_append]
        rw [show countRun isPySpace
          (c :: (v' ++ ("-----".data ++ '\n' :: rest))) = 0 from
          countRun_cons_false _ hc.2.2.1]
        rw [List.drop_zero]
        exact dropLit_head_ne _ _ (fun hh => hc.1 hh.symm)
      · rw [List.cons_append]
        rw [show countRun isPySpace
          (' ' :: (v' ++ ("-----".data ++ '\n' :: rest))) =
          countRun isPySpace (v' ++ ("-----".data ++ '\n' :: rest)) + 1 from by
            have hsp : isPySpace ' ' = true := by decide
            simp [countRun, hsp]]
        rw [List.drop_succ_cons]
        exact ih (fun d hd => hv d (by simp [hd]))

theorem matchBegin_header (N r : List Char) (hN : N ≠ [])
    (hAZ : ∀ c ∈ N, ('A' ≤ c ∧ c ≤ 'Z') ∨ c = ' ')
    (hr : countRun isPySpace r = 0) :
    matchBegin ("-----BEGIN ".data ++ (N ++ ("-----".data ++ '\n' :: r))) =
      some ((("-----BEGIN ".data ++ N ++ "-----".data) ++ ['\n']).length,
        ("-----BEGIN ".data ++ N ++ "-----".data) ++ ['\n']) := by
  have hclass : ∀ c ∈ N, isNameChar c = true := fun c hc =>
    (nameChar_facts (hAZ c hc)).2.2
  have hk : countRun isNameChar (N ++ ("-----".data ++ '\n' :: r)) =
      N.length := by
    rw [countRun_all _ _ _ hclass]
    rw [show countRun isNameChar ("-----".data ++ '\n' :: r) = 0 from
      countRun_cons_false _ (by decide)]
    omega
  have hkne : (N.length == 0) = false := by
    simp [List.length_eq_zero, hN]
  have hw : countRun isPySpace ('\n' :: r) = 1 := by
    have : isPySpace '\n' = true := by decide
    simp [countRun, hr, this]
  simp only [matchBegin, dropLit_self, hk, hkne, Bool.false_eq_true,
    if_false, List.drop_left, dropLit_self, hw, List.take_left]
  simp

theorem matchEndWs_footer (N : List Char) (hN : N ≠ [])
    (hAZ : ∀ c ∈ N, ('A' ≤ c ∧ c ≤ 'Z') ∨ c = ' ') :
    matchEndWs ('\n' :: ("-----END ".data ++ N ++ "-----".data)) =
      some (('\n' :: ("-----END ".data ++ N ++ "-----".data)).length,
        '\n' :: ("-----END ".data ++ N ++ "-----".data)) := by
  have hclass : ∀ c ∈ N, isNameChar c = true := fun c hc =>
    (nameChar_facts (hAZ c hc)).2.2
  have hw : countRun isPySpace
      ('\n' :: ("-----END ".data ++ N ++ "-----".data)) = 1 := by
    have h1 : isPySpace '\n' = true := by decide
    have h2 : isPySpace '-' = false := by decide
    rw [show "-----END ".data ++ N ++ "-----".data =
      '-' :: ("----END ".data ++ N ++ "-----".data) from by simp]
    simp [countRun, h1, h2]
  have hk : countRun isNameChar (N ++ "-----".data) = N.length := by
    rw [show (N ++ "-----".data) = N ++ ("-----".data ++ []) from by simp]
    rw [countRun_all _ _ _ hclass]
    rw [show countRun isNameChar ("-----".data ++ []) = 0 from
      countRun_cons_false _ (by decide)]
    omega
  have hkne : (N.length == 0) = false := by
    simp [List.length_eq_zero, hN]
  have hdrop : dropLit "-----END ".data
      (("-----END ".data ++ N ++ "-----".data)) = some (N ++ "-----".data) := by
    rw [List.append_assoc]
    exact dropLit_self _ _
  have hdrop2 : dropLit "-----".data ((N ++ "-----".data).drop N.length) =
      some [] := by
    rw [List.drop_left]
    rw [show "-----".data = "-----".data ++ ([] : List Char) from by simp]
    exact dropLit_self _ _
  simp only [matchEndWs, hw, List.drop_one]
  simp only [show (1 == 0) = false from rfl, Bool.false_eq_true, if_false]
  simp only [List.tail_cons, hdrop, hk, hkne, hdrop2, List.take_left]
  simp
  omega

theorem matchBegin_none_footer (N : List Char)
    (hAZ : ∀ c ∈ N, ('A' ≤ c ∧ c ≤ 'Z') ∨ c = ' ') :
    ∀ t, t <:+ "-----END ".data ++ N ++ "-----".data → t ≠ [] →
      matchBegin t = none := by
  intro t ht htne
  rw [List.append_assoc] at ht
  rcases suffix_append_split ht with h1 | ⟨u, hu, hune, rfl⟩
  · rcases suffix_append_split h1 with h2 | ⟨v, hv, hvne, rfl⟩
    · have hconc : ∀ t' ∈ ("-----".data).tails,
          t' = [] ∨ matchBegin t' = none := by decide
      rcases hconc t ((List.mem_tails _ _).mpr h2) with h | h
      · exact absurd h htne
      · exact h
    · cases v with
      | nil => exact absurd rfl hvne
      | cons c cs =>
          have hc : c ∈ N := hv.subset (by simp)
          rw [List.cons_append]
          exact matchBegin_none_head _ (nameChar_facts (hAZ c hc)).1
  · have hconc : ∀ u' ∈ ("-----END ".data).tails,
        u' = [] ∨ mismatchWithin "-----BEGIN ".data u' = true := by decide
    rcases hconc u ((List.mem_tails _ _).mpr hu) with h | h
    · exact absurd h hune
    · exact matchBegin_none_of_dropLit (dropLit_of_mismatchWithin _ _ _ h)

theorem matchBegin_none_rest (N : List Char) (lines : List (List Char))
    (hAZ : ∀ c ∈ N, ('A' ≤ c ∧ c ≤ 'Z') ∨ c = ' ') (hg : GoodLines lines) :
    ∀ t, t <:+ joinLines lines ++
        '\n' :: ("-----END ".data ++ N ++ "-----".data) → t ≠ [] →
      matchBegin t = none := by
  intro t ht htne
  rcases suffix_append_split ht with h1 | ⟨u, hu, hune, rfl⟩
  · rcases List.suffix_cons_iff.mp h1 with h2 | h3
    · rw [h2]; exact matchBegin_none_head _ (by decide)
    · exact matchBegin_none_footer N hAZ t h3 htne
  · rcases joinLines_suffix hg u hu hune with
      ⟨c, cs, rfl, hc1, _⟩ | ⟨d, ds, rfl, _, _⟩
    · rw [List.cons_append]; exact matchBegin_none_head _ hc1
    · rw [List.cons_append]; exact matchBegin_none_head _ (by decide)

theorem matchEndWs_none_before (N : List Char) (lines : List (List Char))
    (hAZ : ∀ c ∈ N, ('A' ≤ c ∧ c ≤ 'Z') ∨ c = ' ') (hg : GoodLines lines) :
    ∀ t, t <:+ (("-----BEGIN ".data ++ N ++ "-----".data) ++
        '\n' :: joinLines lines) ++
        ('\n' :: ("-----END ".data ++ N ++ "-----".data)) →
      ('\n' :: ("-----END ".data ++ N ++ "-----".data)).length < t.length →
      matchEndWs t = none := by
  intro t ht hlen
  rcases suffix_append_split ht with h1 | ⟨u, hu, hune, rfl⟩
  · exact absurd h1.length_le (by omega)
  · rcases suffix_append_split hu with h2 | ⟨v, hv, hvne, rfl⟩
    · rcases List.suffix_cons_iff.mp h2 with h3 | h4
      · obtain ⟨d, ds, hB, hd1, hd2⟩ := joinLines_head hg
        rw [h3, hB, List.cons_append, List.cons_append]
        exact matchEndWs_none_ws_then _ (by decide) hd2 hd1
      · rcases joinLines_suffix hg u h4 hune with
          ⟨c, cs, rfl, hc1, hc2⟩ | ⟨d, ds, rfl, hd1, hd2⟩
        · rw [List.cons_append]
          exact matchEndWs_none_head _ hc2
        · rw [List.cons_append, List.cons_append]
          exact matchEndWs_none_ws_then _ (by decide) hd2 hd1
    · rw [List.append_assoc] at hv
      rcases suffix_append_split hv with h5 | ⟨w', hw', hwne, rfl⟩
      · rcases suffix_append_split h5 with h6 | ⟨v', hv', hvne', rfl⟩
        · cases v with
          | nil => exact absurd rfl hvne
          | cons c cs =>
              have hcm : c ∈ "-----".data := h6.subset (by simp)
              have hall : ∀ x ∈ "-----".data, x = '-' := by decide
              rw [hall c hcm, List.cons_append, List.cons_append]
              exact matchEndWs_none_head _ (by decide)
        · have hv'c : ∀ c ∈ v', ('A' ≤ c ∧ c ≤ 'Z') ∨ c = ' ' :=
            fun c hc => hAZ c (hv'.subset hc)
          rw [show ((v' ++ "-----".data) ++ '\n' :: joinLines lines) ++
            ('\n' :: ("-----END ".data ++ N ++ "-----".data)) =
            v' ++ ("-----".data ++ '\n' ::
              (joinLines lines ++
                '\n' :: ("-----END ".data ++ N ++ "-----".data)))
            from by simp]
          exact matchEndWs_none_of_dropCond _ (nameish_dropCond v' hv'c _)
      · have hconc : ∀ w ∈ ("-----BEGIN ".data).tails,
            w = [] ∨ w = [' '] ∨ (w ≠ [] ∧ isPySpace w.headI = false) := by
          decide
        rcases hconc w' ((List.mem_tails _ _).mpr hw') with h | h | ⟨_, h⟩
        · exact absurd h hwne
        · subst h
          have hvc : ∀ c ∈ (' ' :: N), ('A' ≤ c ∧ c ≤ 'Z') ∨ c = ' ' := by
            intro c hc
            rcases List.mem_cons.mp hc with rfl | hc2
            · exact Or.inr rfl
            · exact hAZ c hc2
          rw [show (([' '] ++ (N ++ "-----".data)) ++ '\n' :: joinLines lines) ++
            ('\n' :: ("-----END ".data ++ N ++ "-----".data)) =
            (' ' :: N) ++ ("-----".data ++ '\n' ::
              (joinLines lines ++
                '\n' :: ("-----END ".data ++ N ++ "-----".data)))
            from by simp]
          exact matchEndWs_none_of_dropCond _ (nameish_dropCond (' ' :: N) hvc _)
        · cases w' with
          | nil => exact absurd rfl hwne
          | cons c cs =>
              simp only [List.headI] at h
              rw [List.cons_append, List.cons_append, List.cons_append]
              exact matchEndWs_none_head _ h

theorem lookBehind_head_ne {d : Char} (rest : List Char) (h : d ≠ '\n') :
    lookBehind (d :: rest) = false :=
  charsMatchHere_head_ne _ _ (fun hh => h hh.symm)

theorem lookBehind_second_ne {d : Char} (rest : List Char) (h : d ≠ '-') :
    lookBehind ('\n' :: d :: rest) = false := by
  have h2 : charsMatchHere "-----".data (d :: rest) = false :=
    charsMatchHere_head_ne _ _ (fun hh => h hh.symm)
  show ((('\n' : Char) == '\n') && charsMatchHere "-----".data (d :: rest)) =
    false
  rw [h2]
  simp

theorem lookBehind_hyphens (rest : List Char) :
    lookBehind ('\n' :: ("-----".data ++ rest)) = true := by
  simp [lookBehind, charsMatchHere, charsMatchHere_self_append]

theorem laPat_head_ne {c : Char} (l : List Char) (h : c ≠ '\n') :
    charsMatchHere "\n-----".data (c :: l) = false :=
  charsMatchHere_head_ne _ _ (fun hh => h hh.symm)

theorem laPat_second_ne {d : Char} (l : List Char) (h : d ≠ '-') :
    charsMatchHere "\n-----".data ('\n' :: d :: l) = false := by
  have h2 : charsMatchHere "-----".data (d :: l) = false :=
    charsMatchHere_head_ne _ _ (fun hh => h hh.symm)
  show ((('\n' : Char) == '\n') && charsMatchHere "-----".data (d :: l)) =
    false
  rw [h2]
  simp

theorem laPat_at_footer (N : List Char) :
    charsMatchHere "\n-----".data
      ('\n' :: ("-----END ".data ++ N ++ "-----".data)) = true := by
  show charsMatchHere ('\n' :: "-----".data) _ = true
  rw [show "-----END ".data ++ N ++ "-----".data =
    "-----".data ++ ("END ".data ++ N ++ "-----".data) from by simp]
  simp [charsMatchHere, charsMatchHere_self_append]

theorem mapSpace_eq_self {l : List Char} (h : ∀ c ∈ l, c ≠ ' ') :
    mapSpace l = l := by
  induction l with
  | nil => rfl
  | cons c cs ih =>
      have hc : (c == ' ') = false := by
        simp [h c (by simp)]
      have ih' := ih fun d hd => h d (by simp [hd])
      simp only [mapSpace, List.map_cons, hc, Bool.false_eq_true, if_false]
      rw [show List.map (fun ch => if ch == ' ' then '\n' else ch) cs =
        mapSpace cs from rfl, ih']

theorem header_no_nl (N : List Char) (hAZ : ∀ c ∈ N, ('A' ≤ c ∧ c ≤ 'Z') ∨ c = ' ') :
    ∀ c ∈ "-----BEGIN ".data ++ N ++ "-----".data, c ≠ '\n' := by
  intro c hc
  simp only [List.mem_append] at hc
  rcases hc with (hc1 | hc2) | hc3
  · have : ∀ x ∈ "-----BEGIN ".data, x ≠ '\n' := by decide
    exact this c hc1
  · exact (nameChar_facts (hAZ c hc2)).2.1
  · have : ∀ x ∈ "-----".data, x ≠ '\n' := by decide
    exact this c hc3

theorem footer_no_nl (N : List Char) (hAZ : ∀ c ∈ N, ('A' ≤ c ∧ c ≤ 'Z') ∨ c = ' ') :
    ∀ c ∈ "-----END ".data ++ N ++ "-----".data, c ≠ '\n' := by
  intro c hc
  simp only [List.mem_append] at hc
  rcases hc with (hc1 | hc2) | hc3
  · have : ∀ x ∈ "-----END ".data, x ≠ '\n' := by decide
    exact this c hc1
  · exact (nameChar_facts (hAZ c hc2)).2.1
  · have : ∀ x ∈ "-----".data, x ≠ '\n' := by decide
    exact this c hc3

theorem prefix_sub_of_append {t u x : List Char} {a : Char}
    (h : t ++ u = x ++ [a]) (hu : u ≠ []) : ∀ b ∈ t, b ∈ x := by
  have hpre : t <+: x ++ [a] := ⟨u, h⟩
  have hlen : t.length ≤ x.length := by
    have hl := congrArg List.length h
    simp only [List.length_append, List.length_cons, List.length_nil] at hl
    have hu' : 0 < u.length := List.length_pos.mpr hu
    omega
  have htx : t <+: x := by
    have h2 : t = (x ++ [a]).take t.length := List.prefix_iff_eq_take.mp hpre
    rw [List.take_append_of_le_length hlen] at h2
    rw [h2]
    exact List.take_prefix _ _
  exact fun b hb => htx.subset hb

theorem lookBehind_false_in_header (N : List Char)
    (hAZ : ∀ c ∈ N, ('A' ≤ c ∧ c ≤ 'Z') ∨ c = ' ') :
    ∀ t u, ("-----BEGIN ".data ++ N ++ "-----".data) ++ ['\n'] = t ++ u →
      u ≠ [] → lookBehind (t.reverse ++ ([] : List Char)) = false := by
  intro t u heq hu
  cases htr : t.reverse with
  | nil => decide
  | cons d ds =>
      have hd : d ∈ t := by rw [← List.mem_reverse, htr]; simp
      have hdx : d ∈ "-----BEGIN ".data ++ N ++ "-----".data :=
        prefix_sub_of_append heq.symm hu d hd
      exact lookBehind_head_ne _ (header_no_nl N hAZ d hdx)

theorem lookBehind_false_after (N : List Char) (lines : List (List Char))
    (hAZ : ∀ c ∈ N, ('A' ≤ c ∧ c ≤ 'Z') ∨ c = ' ') (hg : GoodLines lines)
    (prev0 : List Char) :
    ∀ t u, ('\n' :: ("-----END ".data ++ N ++ "-----".data)) = t ++ u →
      u ≠ [] →
      lookBehind (t.reverse ++ ((joinLines lines).reverse ++ prev0)) =
        false := by
  intro t u heq hu
  obtain ⟨d, ds, hB, hd1, hd2⟩ := joinLines_reverse_head hg
  cases t with
  | nil =>
      simp only [List.reverse_nil, List.nil_append]
      rw [hB]
      exact lookBehind_head_ne _ (pySpace_ne_nl hd2)
  | cons c t' =>
      rw [List.cons_append] at heq
      have h1 : c = '\n' := by
        have hh := congrArg List.headI heq
        simpa using hh.symm
      subst h1
      have h2 : "-----END ".data ++ N ++ "-----".data = t' ++ u := by
        have hh := congrArg List.tail heq
        simpa using hh
      cases t' with
      | nil =>
          rw [show (['\n'] : List Char).reverse = ['\n'] from rfl]
          rw [show (['\n'] : List Char) ++
            ((joinLines lines).reverse ++ prev0) =
            '\n' :: ((joinLines lines).reverse ++ prev0) from rfl]
          rw [hB]
          exact lookBehind_second_ne _ hd1
      | cons e t'' =>
          cases htr : (e :: t'').reverse with
          | nil => simp at htr
          | cons f fs =>
              have hf : f ∈ e :: t'' := by
                rw [← List.mem_reverse, htr]; simp
              have hfF : f ∈ "-----END ".data ++ N ++ "-----".data := by
                rw [h2]
                exact List.mem_append.mpr (Or.inl hf)
              rw [List.reverse_cons, htr]
              rw [show ((f :: fs) ++ ['\n']) ++
                ((joinLines lines).reverse ++ prev0) =
                f :: (fs ++ ['\n'] ++ ((joinLines lines).reverse ++ prev0))
                from by simp]
              exact lookBehind_head_ne _ (footer_no_nl N hAZ f hfF)

theorem pass1_pem (N : List Char) (lines : List (List Char)) (hN : N ≠ [])
    (hAZ : ∀ c ∈ N, ('A' ≤ c ∧ c ≤ 'Z') ∨ c = ' ') (hg : GoodLines lines) :
    subScanAux matchBegin (pemChars N lines) 0 = pemChars N lines := by
  obtain ⟨c0, Bt, hB, hc0, hc0w⟩ := joinLines_head hg
  have hshape : pemChars N lines =
      (("-----BEGIN ".data ++ N ++ "-----".data) ++ ['\n']) ++
        (joinLines lines ++
          ('\n' :: ("-----END ".data ++ N ++ "-----".data))) := by
    simp [pemChars]
  rw [hshape]
  have hr : countRun isPySpace
      (joinLines lines ++
        ('\n' :: ("-----END ".data ++ N ++ "-----".data))) = 0 := by
    rw [hB, List.cons_append]
    exact countRun_cons_false _ hc0w
  have hm : matchBegin ((("-----BEGIN ".data ++ N ++ "-----".data) ++ ['\n']) ++
      (joinLines lines ++
        ('\n' :: ("-----END ".data ++ N ++ "-----".data)))) =
      some (((("-----BEGIN ".data ++ N ++ "-----".data) ++ ['\n'])).length,
        ("-----BEGIN ".data ++ N ++ "-----".data) ++ ['\n']) := by
    rw [show ((("-----BEGIN ".data ++ N ++ "-----".data) ++ ['\n']) ++
      (joinLines lines ++
        ('\n' :: ("-----END ".data ++ N ++ "-----".data)))) =
      "-----BEGIN ".data ++ (N ++ ("-----".data ++ '\n' ::
        (joinLines lines ++
          ('\n' :: ("-----END ".data ++ N ++ "-----".data))))) from by simp]
    exact matchBegin_header N _ hN hAZ hr
  rw [subScanAux_match matchBegin _ _ _ (by simp) hm]
  congr 1
  have hwalk := subScanAux_walk matchBegin
    (joinLines lines ++ ('\n' :: ("-----END ".data ++ N ++ "-----".data))) []
    (by
      intro t ht hlen
      rw [List.append_nil] at ht
      exact matchBegin_none_rest N lines hAZ hg t ht
        (by intro h; subst h; simp at hlen))
  simpa [subScanAux] using hwalk

theorem pass2_pem (N : List Char) (lines : List (List Char)) (hN : N ≠ [])
    (hAZ : ∀ c ∈ N, ('A' ≤ c ∧ c ≤ 'Z') ∨ c = ' ') (hg : GoodLines lines) :
    subScanAux matchEndWs (pemChars N lines) 0 = pemChars N lines := by
  have hshape : pemChars N lines =
      (("-----BEGIN ".data ++ N ++ "-----".data) ++ '\n' :: joinLines lines)
        ++ ('\n' :: ("-----END ".data ++ N ++ "-----".data)) := by
    simp [pemChars]
  rw [hshape]
  rw [subScanAux_walk matchEndWs _ _ (matchEndWs_none_before N lines hAZ hg)]
  congr 1
  have hm : matchEndWs (('\n' :: ("-----END ".data ++ N ++ "-----".data)) ++
      ([] : List Char)) =
      some ((('\n' :: ("-----END ".data ++ N ++ "-----".data))).length,
        '\n' :: ("-----END ".data ++ N ++ "-----".data)) := by
    rw [List.append_nil]
    exact matchEndWs_footer N hN hAZ
  have hstep := subScanAux_match matchEndWs
    ('\n' :: ("-----END ".data ++ N ++ "-----".data)) [] _ (by simp) hm
  simpa [subScanAux] using hstep

theorem pass3_pem (N : List Char) (lines : List (List Char))
    (hAZ : ∀ c ∈ N, ('A' ≤ c ∧ c ≤ 'Z') ∨ c = ' ') (hg : GoodLines lines) :
    scan3Aux [] (pemChars N lines) 0 = pemChars N lines := by
  obtain ⟨c0, Bt, hB, hc0, hc0w⟩ := joinLines_head hg
  have hshape : pemChars N lines =
      (("-----BEGIN ".data ++ N ++ "-----".data) ++ ['\n']) ++
        (joinLines lines ++
          ('\n' :: ("-----END ".data ++ N ++ "-----".data))) := by
    simp [pemChars]
  rw [hshape]
  rw [scan3Aux_walk [] _ _ (lookBehind_false_in_header N hAZ)]
  congr 1
  have hprev : ((("-----BEGIN ".data ++ N ++ "-----".data) ++ ['\n']).reverse
      ++ ([] : List Char)) =
      '\n' :: ("-----".data ++
        (N.reverse ++ ("-----BEGIN ".data).reverse)) := by
    rw [List.reverse_append, List.append_nil, List.reverse_append,
      List.reverse_append]
    rw [show ("-----".data : List Char).reverse = "-----".data from by decide]
    simp
  rw [hprev, hB]
  have hfind : findLA (Bt ++ ('\n' :: ("-----END ".data ++ N ++ "-----".data)))
      = some Bt.length := by
    apply findLA_append
    · intro t' u heq hu
      have huB : u <:+ joinLines lines := by
        rw [hB]
        exact List.IsSuffix.trans ⟨t', heq.symm⟩ (List.suffix_cons c0 Bt)
      rcases joinLines_suffix hg u huB hu with
        ⟨c, cs, rfl, _, hc2⟩ | ⟨d, ds, rfl, hd1, _⟩
      · rw [List.cons_append]
        exact laPat_head_ne _ (pySpace_ne_nl hc2)
      · rw [List.cons_append, List.cons_append]
        exact laPat_second_ne _ hd1
    · exact laPat_at_footer N
  have hstep : scan3Aux
      ('\n' :: ("-----".data ++ (N.reverse ++ ("-----BEGIN ".data).reverse)))
      ((c0 :: Bt) ++ ('\n' :: ("-----END ".data ++ N ++ "-----".data))) 0 =
      mapSpace (c0 :: Bt) ++ scan3Aux ((c0 :: Bt).reverse ++
        ('\n' :: ("-----".data ++
          (N.reverse ++ ("-----BEGIN ".data).reverse))))
        ('\n' :: ("-----END ".data ++ N ++ "-----".data)) 0 := by
    rw [show (c0 :: Bt) ++ ('\n' :: ("-----END ".data ++ N ++ "-----".data)) =
      c0 :: (Bt ++ ('\n' :: ("-----END ".data ++ N ++ "-----".data)))
      from rfl]
    exact scan3Aux_match _ c0 Bt _ (lookBehind_hyphens _) hfind
  rw [hstep]
  have hms : mapSpace (c0 :: Bt) = c0 :: Bt := by
    apply mapSpace_eq_self
    intro c hc
    have hcB : c ∈ joinLines lines := by rw [hB]; exact hc
    rcases joinLines_mem (fun l hl => (hg.2 l hl).2) c hcB with rfl | ⟨_, hw⟩
    · decide
    · exact pySpace_ne_space hw
  rw [hms]
  congr 1
  rw [← hB]
  have hwalk := scan3Aux_walk
    ((joinLines lines).reverse ++
      ('\n' :: ("-----".data ++ (N.reverse ++ ("-----BEGIN ".data).reverse))))
    ('\n' :: ("-----END ".data ++ N ++ "-----".data)) []
    (lookBehind_false_after N lines hAZ hg _)
  simpa [scan3Aux] using hwalk

/-- C10 (amended): a PEM string already formatted with newline-separated
body lines — `-----BEGIN <name>-----`, nonempty body lines containing no
hyphens and no whitespace, joined by single newlines, and
`-----END <name>-----`, where the name is a nonempty string of capital
letters and spaces — is left unchanged by `fix_pem_string`, and
`fix_pem_string` is therefore idempotent on such strings (it is not
idempotent on arbitrary strings, see the counterexample). -/
theorem fix_pem_string_formatted (name : String) (body : List String)
    (hname : name.data ≠ [] ∧
      ∀ c ∈ name.data, ('A' ≤ c ∧ c ≤ 'Z') ∨ c = ' ')
    (hbody : body ≠ [] ∧ ∀ s ∈ body, s.data ≠ [] ∧
      ∀ c ∈ s.data, c ≠ '-' ∧ isPySpace c = false) :
    fix_pem_string (pemString name body) = pemString name body ∧
    fix_pem_string (fix_pem_string (pemString name body)) =
      fix_pem_string (pemString name body) := by
  have hg : GoodLines (body.map String.data) := by
    constructor
    · simp [hbody.1]
    · intro l hl
      obtain ⟨s, hs, rfl⟩ := List.mem_map.mp hl
      exact hbody.2 s hs
  have h1 := pass1_pem name.data (body.map String.data) hname.1 hname.2 hg
  have h2 := pass2_pem name.data (body.map String.data) hname.1 hname.2 hg
  have h3 := pass3_pem name.data (body.map String.data) hname.2 hg
  have hfix : fix_pem_string (pemString name body) = pemString name body := by
    show (⟨scan3Aux [] (subScanAux matchEndWs
      (subScanAux matchBegin (pemString name body).data 0) 0) 0⟩ : String) =
      pemString name body
    rw [show (pemString name body).data =
      pemChars name.data (body.map String.data) from rfl]
    rw [h1, h2, h3]
    rfl
  exact ⟨hfix, by rw [hfix]; exact hfix⟩

/-- Witness for C10's amended theorem: a concrete well-formed RSA private
key skeleton is a fixed point of `fix_pem_string`. -/
theorem fix_pem_string_formatted_witness :
    fix_pem_string (pemString "RSA PRIVATE KEY" ["MIIEow", "QEFAAO"]) =
      pemString "RSA PRIVATE KEY" ["MIIEow", "QEFAAO"] :=
  (fix_pem_string_formatted "RSA PRIVATE KEY" ["MIIEow", "QEFAAO"]
    (by constructor <;> decide) (by constructor <;> decide)).1

end CircleCIUtils
